import Mathlib

/-!
Shallow embedding of `assignment.py`, a textbook RSA implementation, together
with proofs and refutations of its specification's claims.

Modelling conventions, chosen to match Python semantics on the integers:
* Python `//` is floor division and `%` is floor remainder, so they are
  embedded as `Int.fdiv` and `Int.fmod` (for a positive divisor these agree
  with Lean's `/` = `Int.ediv` and `%` = `Int.emod`).
* Functions that can raise return `Except String α`; the error string is the
  message the Python code raises with.
* The recursive functions (`euclid_gcd`, `extended_euclid_gcd`, `powers`) and
  the `while` loops are embedded with an explicit fuel argument so that every
  definition is structurally recursive and kernel-computable; the public
  wrapper supplies fuel that provably suffices (see the `..._eq` unfolding
  theorems, which recover the exact recurrences of the source).  The
  fuel-exhausted branches are unreachable at the fuel the wrappers pass.
* Strings over the 26-letter alphabet are modelled as `List Char`.
* `random.randint` / `random.choice` draws are modelled by an explicit oracle
  function (an arbitrary `draw` argument); `random.randint(a, b)` raises
  `ValueError` when `b < a` (empty range), which the embedding mirrors with an
  `Except.error`.
-/

deriving instance DecidableEq for Except

namespace RSA

/-- The `characters` list of the BearcatII system (source lines 6-33). -/
def characters : List Char :=
  ['A', 'B', 'C', 'D', 'E', 'F', 'G', 'H', 'I', 'J', 'K', 'L', 'M',
   'N', 'O', 'P', 'Q', 'R', 'S', 'T', 'U', 'V', 'W', 'X', 'Y', 'Z']

/-- Python list subscription `l[i]`: an index `0 ≤ i < len(l)` selects
directly, a negative index `-len(l) ≤ i < 0` wraps to `l[i + len(l)]`, and
anything else raises `IndexError`. -/
def pylist_get (l : List Char) (i : Int) : Except String Char :=
  if h : 0 ≤ i ∧ i.toNat < l.length then
    Except.ok (l.get ⟨i.toNat, h.2⟩)
  else if h2 : 0 ≤ i + l.length ∧ (i + l.length).toNat < l.length then
    Except.ok (l.get ⟨(i + l.length).toNat, h2.2⟩)
  else
    Except.error "list index out of range"

/-- Source lines 36-53: `get_character_from_index`.  Note the guard only
rejects `index > len(characters)`; `characters[index - 1]` is then Python
subscription, which for `index = 0` wraps to the last list element. -/
def get_character_from_index (index : Int) : Except String Char :=
  if index > (characters.length : Int) then
    Except.error "Index out of range of BearcatII system."
  else
    pylist_get characters (index - 1)

/-- The search loop of `get_index_from_character` (source lines 70-74):
walk the list with a running 0-based index, returning `index + 1` at the
first match. -/
def character_search : List Char → Char → Int → Except String Int
  | [], _, _ => Except.error "Character not found"
  | c :: cs, character, idx =>
      if c = character then Except.ok (idx + 1) else character_search cs character (idx + 1)

/-- Source lines 56-74: `get_index_from_character`. -/
def get_index_from_character (character : Char) : Except String Int :=
  character_search characters character 0

/-- Source lines 77-90: `get_random_int_between(a, b)` is
`random.randint(a, b)`, which raises `ValueError` for an empty range
(`b < a`) and otherwise returns some integer in `[a, b]`, here supplied by
the oracle `draw`. -/
def get_random_int_between (draw : Int → Int → Int) (a b : Int) : Except String Int :=
  if b < a then Except.error "empty range for randrange()" else Except.ok (draw a b)

/-- Fuel-indexed body of `euclid_gcd` (source lines 93-108). -/
def euclid_gcd_fuel : Nat → Int → Int → Int
  | 0, a, _ => a
  | f + 1, a, b => if b = 0 then a else euclid_gcd_fuel f b (Int.fmod a b)

/-- Source lines 93-108: `euclid_gcd(a, b)`; the fuel `b.natAbs + 1`
suffices because `|a % b|` strictly decreases (see `euclid_gcd_eq`). -/
def euclid_gcd (a b : Int) : Int :=
  euclid_gcd_fuel (b.natAbs + 1) a b

/-- Fuel-indexed body of `extended_euclid_gcd` (source lines 111-131). -/
def extended_euclid_gcd_fuel : Nat → Int → Int → Int × Int × Int
  | 0, a, _ => (a, 1, 0)
  | f + 1, a, b =>
      if b = 0 then (a, 1, 0)
      else
        let gst := extended_euclid_gcd_fuel f b (Int.fmod a b)
        (gst.1, gst.2.2, gst.2.1 - Int.fdiv a b * gst.2.2)

/-- Source lines 111-131: `extended_euclid_gcd(a, b)`, returning the triple
`(g, s, t)` with base case `(a, 1, 0)` and combination step
`(g, t, s - (a // b) * t)`. -/
def extended_euclid_gcd (a b : Int) : Int × Int × Int :=
  extended_euclid_gcd_fuel (b.natAbs + 1) a b

/-- Fuel-indexed body of `powers` (source lines 134-167), the modular
exponentiation `(a ^ n) mod k` with modular inversion for `n < 0`. -/
def powers_fuel : Nat → Int → Int → Int → Except String Int
  | 0, _, _, _ => Except.ok 0
  | f + 1, a, n, k =>
      if n = 0 then Except.ok (Int.fmod 1 k)
      else if n = 1 then Except.ok (Int.fmod a k)
      else if n < 0 then
        let gst := extended_euclid_gcd a k
        if gst.1 ≠ 1 then Except.error "Inverse does not exist."
        else powers_fuel f (Int.fmod gst.2.1 k) (-n) k
      else if Int.fmod n 2 = 0 then
        powers_fuel f (Int.fmod (a * a) k) (Int.fdiv n 2) k
      else
        (powers_fuel f (Int.fmod (a * a) k) (Int.fdiv (n - 1) 2) k).map
          fun r => Int.fmod (a * r) k

/-- Source lines 134-167: `powers(a, n, k)`.  The fuel `2 * n.natAbs + 2`
suffices: the negative branch flips the sign once and the halving branches
strictly shrink `n.natAbs` (see `powers_eq`). -/
def powers (a n k : Int) : Except String Int :=
  powers_fuel (2 * n.natAbs + 2) a n k

/-- The inner `while (k % 2) == 0` loop of `prime_test_miller_rabin`
(source lines 191-200), with the remaining halvings bounded by fuel.
`Except.ok true` means the current witness is consistent with primality
(loop `break` or natural exit); `Except.ok false` means a nontrivial square
root of unity was found.  Python would loop forever only when `k = 0`, which
is unreachable: the witness draw raises before the loop whenever `n ≤ 3`. -/
def mr_halving_loop (a n : Int) : Int → Nat → Except String Bool
  | _, 0 => Except.ok true
  | k, f + 1 =>
      if Int.fmod k 2 = 0 then
        let k2 := Int.fdiv k 2
        (powers a k2 n).bind fun x =>
          if x = n - 1 then Except.ok true
          else if x ≠ 1 then Except.ok false
          else mr_halving_loop a n k2 f
      else Except.ok true

/-- The `for _ in range(iterations)` loop of `prime_test_miller_rabin`
(source lines 183-202): each round draws a witness `a` in `[2, n-2]`,
applies the Fermat pretest `powers(a, n-1, n) == 1`, then runs the halving
loop; any failure yields `false`, surviving all rounds yields `true`. -/
def prime_test_rounds (draw : Nat → Int → Int → Int) (n : Int) : Nat → Except String Bool
  | 0 => Except.ok true
  | r + 1 =>
      (get_random_int_between (draw r) 2 (n - 2)).bind fun a =>
        (powers a (n - 1) n).bind fun fermat =>
          if fermat ≠ 1 then Except.ok false
          else
            (mr_halving_loop a n (n - 1) (n - 1).natAbs).bind fun pass =>
              if pass then prime_test_rounds draw n r else Except.ok false

/-- Source lines 170-202: `prime_test_miller_rabin(n, iterations)`, with the
per-round random witness draws supplied by the oracle `draw`. -/
def prime_test_miller_rabin (draw : Nat → Int → Int → Int) (n : Int) (iterations : Nat) :
    Except String Bool :=
  prime_test_rounds draw n iterations

/-- Value of the decimal-digit string `f"{first}{middles}{last}"` built by
`generate_n_digit_prime` (source line 225): fold the digits most significant
first. -/
def join_digits (ds : List Int) : Int :=
  ds.foldl (fun acc d => acc * 10 + d) 0

/-- Source lines 205-228: `generate_n_digit_prime(n)` is an unbounded
`while True` retry loop over random draws, so it is embedded relationally:
`generate_n_digit_prime_spec n draw result` holds exactly when `result` is a
value some run of the loop can return — a candidate built from a first digit
in `[1, 9]`, `n - 2` middle digits in `[0, 9]` (Python's `range(n - 2)` is
empty for `n ≤ 2`, matching truncated subtraction), and a last digit drawn
from `{1, 3, 7, 9}`, that passes `prime_test_miller_rabin` with 10
iterations. -/
def generate_n_digit_prime_spec (n : Nat) (draw : Nat → Int → Int → Int) (result : Int) : Prop :=
  ∃ (first : Int) (middles : List Int) (lastd : Int),
    1 ≤ first ∧ first ≤ 9 ∧
    middles.length = n - 2 ∧ (∀ d ∈ middles, 0 ≤ d ∧ d ≤ 9) ∧
    (lastd = 1 ∨ lastd = 3 ∨ lastd = 7 ∨ lastd = 9) ∧
    result = join_digits (first :: (middles ++ [lastd])) ∧
    prime_test_miller_rabin draw result 10 = Except.ok true

/-- Source lines 231-244: `convert_to_bearcatii(message)`, the list
comprehension `[get_index_from_character(char) for char in message]`, which
propagates the first lookup failure. -/
def convert_to_bearcatii : List Char → Except String (List Int)
  | [] => Except.ok []
  | c :: cs =>
      (get_index_from_character c).bind fun i =>
        (convert_to_bearcatii cs).map fun is => i :: is

/-- Source lines 247-259: `convert_bearcatii_to_string(bearcatii)`, joining
`get_character_from_index(index)` over the list. -/
def convert_bearcatii_to_string : List Int → Except String (List Char)
  | [] => Except.ok []
  | i :: is =>
      (get_character_from_index i).bind fun c =>
        (convert_bearcatii_to_string is).map fun cs => c :: cs

/-- The `while value:` loop of `convert_to_base_n` (source lines 277-279)
with an accumulator for the `output.insert(0, value % n)` prepends.  Python
terminates only for `value ≥ 0` (with `n ≥ 2`), where the fuel
`value.natAbs + 1` provably suffices; on Python's divergent inputs the fuel
runs out and the partial output is returned. -/
def convert_to_base_n_loop : Nat → Int → Int → List Int → List Int
  | 0, _, _, output => output
  | f + 1, value, n, output =>
      if value = 0 then output
      else convert_to_base_n_loop f (Int.fdiv value n) n (Int.fmod value n :: output)

/-- Source lines 262-281: `convert_to_base_n(value, n)`. -/
def convert_to_base_n (value n : Int) : List Int :=
  convert_to_base_n_loop (value.natAbs + 1) value n []

/-- Source lines 284-302: `horner_eval(coefficients, value)`. -/
def horner_eval (coefficients : List Int) (value : Int) : Int :=
  coefficients.foldl (fun output coefficient => output * value + coefficient) 0

/-- Source lines 305-318: `euler_totient(p, q) = (p - 1) * (q - 1)`. -/
def euler_totient (p q : Int) : Int :=
  (p - 1) * (q - 1)

/-- The data path of `rsa()` (source lines 321-354) once the primes `p`, `q`
and an accepted public exponent `e` are fixed: encode the message through the
BearcatII indices and Horner evaluation at radix `len(characters) + 1`,
encrypt with `powers(·, e, n)`, take the private key `s` from
`extended_euclid_gcd(e, phi)` (unreduced, exactly as line 350 does), decrypt
with `powers(·, s, n)` and decode through base conversion. -/
def rsa_pipeline (p q e : Int) (message : List Char) : Except String (List Char) :=
  let n := p * q
  let phi := euler_totient p q
  (convert_to_bearcatii message).bind fun message_to_bearcatii =>
    let bearcatii_to_decimal := horner_eval message_to_bearcatii ((characters.length : Int) + 1)
    (powers bearcatii_to_decimal e n).bind fun c =>
      let private_key := (extended_euclid_gcd e phi).2.1
      (powers c private_key n).bind fun decrypted =>
        convert_bearcatii_to_string (convert_to_base_n decrypted ((characters.length : Int) + 1))

/-! ### Fuel sufficiency and the source recurrences -/

theorem fmod_eq_sub_mul_fdiv (a b : Int) : Int.fmod a b = a - b * Int.fdiv a b := by
  have h := Int.fmod_add_fdiv a b
  linarith

theorem natAbs_fmod_lt (a b : Int) (hb : 0 < b) : (Int.fmod a b).natAbs < b.natAbs := by
  have h1 := Int.fmod_nonneg' a hb
  have h2 := Int.fmod_lt_of_pos a hb
  omega

theorem euclid_gcd_fuel_congr :
    ∀ (f g : Nat) (a b : Int), 0 ≤ b → b.natAbs < f → b.natAbs < g →
      euclid_gcd_fuel f a b = euclid_gcd_fuel g a b := by
  intro f
  induction f with
  | zero => omega
  | succ f ih =>
    intro g a b hb hf hg
    match g, hg with
    | g + 1, hg =>
      simp only [euclid_gcd_fuel]
      by_cases h0 : b = 0
      · simp [h0]
      · have hbpos : 0 < b := by omega
        have hlt := natAbs_fmod_lt a b hbpos
        have hnn := Int.fmod_nonneg' a hbpos
        simp only [if_neg h0]
        exact ih g b (Int.fmod a b) hnn (by omega) (by omega)

theorem euclid_gcd_eq (a b : Int) (hb : 0 ≤ b) :
    euclid_gcd a b = if b = 0 then a else euclid_gcd b (Int.fmod a b) := by
  show euclid_gcd_fuel (b.natAbs + 1) a b = _
  simp only [euclid_gcd_fuel]
  by_cases h0 : b = 0
  · simp [h0]
  · have hbpos : 0 < b := by omega
    have hlt := natAbs_fmod_lt a b hbpos
    have hnn := Int.fmod_nonneg' a hbpos
    simp only [if_neg h0]
    exact euclid_gcd_fuel_congr b.natAbs ((Int.fmod a b).natAbs + 1) b (Int.fmod a b)
      hnn (by omega) (by omega)

theorem extended_euclid_gcd_fuel_congr :
    ∀ (f g : Nat) (a b : Int), 0 ≤ b → b.natAbs < f → b.natAbs < g →
      extended_euclid_gcd_fuel f a b = extended_euclid_gcd_fuel g a b := by
  intro f
  induction f with
  | zero => omega
  | succ f ih =>
    intro g a b hb hf hg
    match g, hg with
    | g + 1, hg =>
      simp only [extended_euclid_gcd_fuel]
      by_cases h0 : b = 0
      · simp [h0]
      · have hbpos : 0 < b := by omega
        have hlt := natAbs_fmod_lt a b hbpos
        have hnn := Int.fmod_nonneg' a hbpos
        simp only [if_neg h0]
        rw [ih g b (Int.fmod a b) hnn (by omega) (by omega)]

theorem extended_euclid_gcd_eq (a b : Int) (hb : 0 ≤ b) :
    extended_euclid_gcd a b =
      if b = 0 then (a, 1, 0)
      else
        ((extended_euclid_gcd b (Int.fmod a b)).1,
         (extended_euclid_gcd b (Int.fmod a b)).2.2,
         (extended_euclid_gcd b (Int.fmod a b)).2.1 -
           Int.fdiv a b * (extended_euclid_gcd b (Int.fmod a b)).2.2) := by
  show extended_euclid_gcd_fuel (b.natAbs + 1) a b = _
  simp only [extended_euclid_gcd_fuel]
  by_cases h0 : b = 0
  · simp [h0]
  · have hbpos : 0 < b := by omega
    have hlt := natAbs_fmod_lt a b hbpos
    have hnn := Int.fmod_nonneg' a hbpos
    simp only [if_neg h0]
    rw [extended_euclid_gcd_fuel_congr b.natAbs ((Int.fmod a b).natAbs + 1) b (Int.fmod a b)
      hnn (by omega) (by omega)]
    rfl

/-! ### Mathematical facts about the gcd functions -/

theorem int_gcd_step (a b q : Int) : Int.gcd b (a - b * q) = Int.gcd a b := by
  apply Nat.dvd_antisymm
  · apply Int.natCast_dvd_natCast.mp
    apply Int.dvd_gcd
    · have h1 : (↑(Int.gcd b (a - b * q)) : ℤ) ∣ b := Int.gcd_dvd_left
      have h2 : (↑(Int.gcd b (a - b * q)) : ℤ) ∣ a - b * q := Int.gcd_dvd_right
      have h3 := h2.add (h1.mul_right q)
      simpa using h3
    · exact Int.gcd_dvd_left
  · apply Int.natCast_dvd_natCast.mp
    apply Int.dvd_gcd
    · exact Int.gcd_dvd_right
    · have h1 : (↑(Int.gcd a b) : ℤ) ∣ a := Int.gcd_dvd_left
      have h2 : (↑(Int.gcd a b) : ℤ) ∣ b := Int.gcd_dvd_right
      exact dvd_sub h1 (h2.mul_right q)

theorem euclid_gcd_eq_gcd :
    ∀ (N : Nat) (a b : Int), 0 ≤ a → 0 ≤ b → b.natAbs ≤ N →
      euclid_gcd a b = ↑(Int.gcd a b) := by
  intro N
  induction N with
  | zero =>
    intro a b ha hb hN
    have h0 : b = 0 := by omega
    subst h0
    rw [euclid_gcd_eq a 0 le_rfl, if_pos rfl, Int.gcd_zero_right, Int.natAbs_of_nonneg ha]
  | succ N ih =>
    intro a b ha hb hN
    by_cases h0 : b = 0
    · subst h0
      rw [euclid_gcd_eq a 0 le_rfl, if_pos rfl, Int.gcd_zero_right, Int.natAbs_of_nonneg ha]
    · have hbpos : 0 < b := by omega
      have hlt := natAbs_fmod_lt a b hbpos
      have hnn := Int.fmod_nonneg' a hbpos
      rw [euclid_gcd_eq a b hb, if_neg h0, ih b (Int.fmod a b) hb hnn (by omega)]
      rw [fmod_eq_sub_mul_fdiv, int_gcd_step]

theorem extended_euclid_gcd_bezout :
    ∀ (N : Nat) (a b : Int), 0 ≤ b → b.natAbs ≤ N →
      (extended_euclid_gcd a b).2.1 * a + (extended_euclid_gcd a b).2.2 * b =
        (extended_euclid_gcd a b).1 := by
  intro N
  induction N with
  | zero =>
    intro a b hb hN
    have h0 : b = 0 := by omega
    subst h0
    rw [extended_euclid_gcd_eq a 0 le_rfl, if_pos rfl]
    ring
  | succ N ih =>
    intro a b hb hN
    by_cases h0 : b = 0
    · subst h0
      rw [extended_euclid_gcd_eq a 0 le_rfl, if_pos rfl]
      ring
    · have hbpos : 0 < b := by omega
      have hlt := natAbs_fmod_lt a b hbpos
      have hnn := Int.fmod_nonneg' a hbpos
      have hrec := ih b (Int.fmod a b) hnn (by omega)
      have hq := fmod_eq_sub_mul_fdiv a b
      rw [extended_euclid_gcd_eq a b hb, if_neg h0]
      dsimp only
      rw [← hrec, hq]
      ring

theorem extended_euclid_gcd_fst :
    ∀ (N : Nat) (a b : Int), 0 ≤ b → (0 ≤ a ∨ 1 ≤ b) → b.natAbs ≤ N →
      (extended_euclid_gcd a b).1 = ↑(Int.gcd a b) := by
  intro N
  induction N with
  | zero =>
    intro a b hb hab hN
    have h0 : b = 0 := by omega
    subst h0
    have ha : 0 ≤ a := by omega
    rw [extended_euclid_gcd_eq a 0 le_rfl, if_pos rfl, Int.gcd_zero_right,
      Int.natAbs_of_nonneg ha]
  | succ N ih =>
    intro a b hb hab hN
    by_cases h0 : b = 0
    · subst h0
      have ha : 0 ≤ a := by omega
      rw [extended_euclid_gcd_eq a 0 le_rfl, if_pos rfl, Int.gcd_zero_right,
        Int.natAbs_of_nonneg ha]
    · have hbpos : 0 < b := by omega
      have hlt := natAbs_fmod_lt a b hbpos
      have hnn := Int.fmod_nonneg' a hbpos
      rw [extended_euclid_gcd_eq a b hb, if_neg h0]
      simp only
      rw [ih b (Int.fmod a b) hnn (Or.inl hb) (by omega)]
      rw [fmod_eq_sub_mul_fdiv, int_gcd_step]

/-! ### Modular exponentiation: recurrence and correctness -/

theorem powers_fuel_congr :
    ∀ (f g : Nat) (a n k : Int),
      2 * n.natAbs + (if n < 0 then 2 else 1) ≤ f →
      2 * n.natAbs + (if n < 0 then 2 else 1) ≤ g →
      powers_fuel f a n k = powers_fuel g a n k := by
  intro f
  induction f with
  | zero => intro g a n k hf hg; split at hf <;> omega
  | succ f ih =>
    intro g a n k hf hg
    rcases g with _ | g
    · exfalso
      by_cases hneg : n < 0
      · rw [if_pos hneg] at hg; omega
      · rw [if_neg hneg] at hg; omega
    · simp only [powers_fuel]
      by_cases h0 : n = 0
      · simp [h0]
      by_cases h1 : n = 1
      · simp [h0, h1]
      by_cases hneg : n < 0
      · rw [if_pos hneg] at hf hg
        simp only [if_neg h0, if_neg h1, if_pos hneg]
        by_cases hgst : (extended_euclid_gcd a k).1 ≠ 1
        · simp [hgst]
        · simp only [if_neg hgst]
          have hcond : ¬(-n < 0) := by omega
          apply ih
          · rw [if_neg hcond]; omega
          · rw [if_neg hcond]; omega
      · rw [if_neg hneg] at hf hg
        have hn2 : 2 ≤ n := by omega
        have hfd : Int.fdiv n 2 = n / 2 := Int.fdiv_eq_ediv _ (by omega)
        have hfd1 : Int.fdiv (n - 1) 2 = (n - 1) / 2 := Int.fdiv_eq_ediv _ (by omega)
        simp only [if_neg h0, if_neg h1, if_neg hneg]
        by_cases heven : Int.fmod n 2 = 0
        · simp only [if_pos heven, hfd]
          have hcond : ¬((n / 2 : Int) < 0) := by omega
          apply ih
          · rw [if_neg hcond]; omega
          · rw [if_neg hcond]; omega
        · simp only [if_neg heven, hfd1]
          have hcond : ¬(((n - 1) / 2 : Int) < 0) := by omega
          rw [ih g (Int.fmod (a * a) k) ((n - 1) / 2) k
            (by rw [if_neg hcond]; omega) (by rw [if_neg hcond]; omega)]

theorem powers_fuel_succ (f : Nat) (a n k : Int) :
    powers_fuel (f + 1) a n k =
      if n = 0 then Except.ok (Int.fmod 1 k)
      else if n = 1 then Except.ok (Int.fmod a k)
      else if n < 0 then
        if (extended_euclid_gcd a k).1 ≠ 1 then Except.error "Inverse does not exist."
        else powers_fuel f (Int.fmod (extended_euclid_gcd a k).2.1 k) (-n) k
      else if Int.fmod n 2 = 0 then powers_fuel f (Int.fmod (a * a) k) (Int.fdiv n 2) k
      else
        (powers_fuel f (Int.fmod (a * a) k) (Int.fdiv (n - 1) 2) k).map
          fun r => Int.fmod (a * r) k := rfl

theorem powers_eq (a n k : Int) :
    powers a n k =
      if n = 0 then Except.ok (Int.fmod 1 k)
      else if n = 1 then Except.ok (Int.fmod a k)
      else if n < 0 then
        if (extended_euclid_gcd a k).1 ≠ 1 then Except.error "Inverse does not exist."
        else powers (Int.fmod (extended_euclid_gcd a k).2.1 k) (-n) k
      else if Int.fmod n 2 = 0 then powers (Int.fmod (a * a) k) (Int.fdiv n 2) k
      else
        (powers (Int.fmod (a * a) k) (Int.fdiv (n - 1) 2) k).map fun r => Int.fmod (a * r) k := by
  show powers_fuel (2 * n.natAbs + 1 + 1) a n k = _
  rw [powers_fuel_succ]
  by_cases h0 : n = 0
  · simp [h0]
  by_cases h1 : n = 1
  · simp [h0, h1]
  by_cases hneg : n < 0
  · simp only [if_neg h0, if_neg h1, if_pos hneg]
    by_cases hgst : (extended_euclid_gcd a k).1 ≠ 1
    · simp [hgst]
    · simp only [if_neg hgst]
      have hcond : ¬(-n < 0) := by omega
      apply powers_fuel_congr
      · rw [if_neg hcond]; omega
      · rw [if_neg hcond]; omega
  · have hn2 : 2 ≤ n := by omega
    have hfd : Int.fdiv n 2 = n / 2 := Int.fdiv_eq_ediv _ (by omega)
    have hfd1 : Int.fdiv (n - 1) 2 = (n - 1) / 2 := Int.fdiv_eq_ediv _ (by omega)
    simp only [if_neg h0, if_neg h1, if_neg hneg]
    by_cases heven : Int.fmod n 2 = 0
    · simp only [if_pos heven, hfd]
      have hcond : ¬((n / 2 : Int) < 0) := by omega
      apply powers_fuel_congr
      · rw [if_neg hcond]; omega
      · rw [if_neg hcond]; omega
    · simp only [if_neg heven, hfd1]
      have hcond : ¬(((n - 1) / 2 : Int) < 0) := by omega
      rw [powers_fuel_congr (2 * n.natAbs + 1) (2 * ((n - 1) / 2).natAbs + 2)
        (Int.fmod (a * a) k) ((n - 1) / 2) k
        (by rw [if_neg hcond]; omega) (by rw [if_neg hcond]; omega)]
      rfl

theorem int_pow_emod (a : ℤ) (b : ℕ) (n : ℤ) : a ^ b % n = (a % n) ^ b % n := by
  induction b with
  | zero => simp
  | succ b ih =>
    rw [pow_succ, pow_succ, Int.mul_emod, ih, Int.mul_emod ((a % n) ^ b) (a % n), Int.emod_emod]

theorem powers_spec_aux :
    ∀ (N : Nat) (a n k : Int), 0 ≤ n → n.natAbs ≤ N → 1 ≤ k →
      powers a n k = Except.ok (a ^ n.toNat % k) := by
  intro N
  induction N with
  | zero =>
    intro a n k hn hN hk
    have h0 : n = 0 := by omega
    subst h0
    rw [powers_eq]
    simp only [if_pos rfl]
    rw [Int.fmod_eq_emod _ (by omega : (0:ℤ) ≤ k)]
    norm_num
  | succ N ih =>
    intro a n k hn hN hk
    have hk0 : (0:ℤ) ≤ k := by omega
    by_cases h0 : n = 0
    · subst h0
      rw [powers_eq]
      simp only [if_pos rfl]
      rw [Int.fmod_eq_emod _ hk0]
      norm_num
    by_cases h1 : n = 1
    · subst h1
      rw [powers_eq]
      norm_num
      rw [Int.fmod_eq_emod _ hk0]
    have hneg : ¬n < 0 := by omega
    have hn2 : 2 ≤ n := by omega
    have hfd : Int.fdiv n 2 = n / 2 := Int.fdiv_eq_ediv _ (by omega)
    have hfd1 : Int.fdiv (n - 1) 2 = (n - 1) / 2 := Int.fdiv_eq_ediv _ (by omega)
    have hpar : Int.fmod n 2 = n % 2 := Int.fmod_eq_emod _ (by omega)
    rw [powers_eq]
    simp only [if_neg h0, if_neg h1, if_neg hneg]
    by_cases heven : Int.fmod n 2 = 0
    · have hev2 : n % 2 = 0 := by rw [← hpar]; exact heven
      rw [if_pos heven, hfd]
      rw [ih (Int.fmod (a * a) k) (n / 2) k (by omega) (by omega) hk]
      congr 1
      rw [Int.fmod_eq_emod _ hk0, ← int_pow_emod, ← pow_two, ← pow_mul]
      have hexp : 2 * (n / 2).toNat = n.toNat := by omega
      rw [hexp]
    · have hodd : ¬n % 2 = 0 := by rw [← hpar]; exact heven
      rw [if_neg heven, hfd1]
      rw [ih (Int.fmod (a * a) k) ((n - 1) / 2) k (by omega) (by omega) hk]
      show Except.ok (Int.fmod (a * ((Int.fmod (a * a) k) ^ ((n - 1) / 2).toNat % k)) k) = _
      congr 1
      rw [Int.fmod_eq_emod _ hk0, Int.fmod_eq_emod _ hk0, ← int_pow_emod,
        Int.mul_emod a ((a * a) ^ ((n - 1) / 2).toNat % k) k, Int.emod_emod, ← Int.mul_emod,
        ← pow_two, ← pow_mul, ← pow_succ']
      have hexp : 2 * ((n - 1) / 2).toNat + 1 = n.toNat := by omega
      rw [hexp]

theorem powers_spec (a n k : Int) (hn : 0 ≤ n) (hk : 1 ≤ k) :
    powers a n k = Except.ok (a ^ n.toNat % k) :=
  powers_spec_aux n.natAbs a n k hn le_rfl hk

/-! ### Base conversion and the codec round trip -/

theorem except_bind_ok {α β ε : Type} (x : α) (f : α → Except ε β) :
    Except.bind (Except.ok x) f = f x := rfl

theorem except_map_ok {α β ε : Type} (g : α → β) (x : α) :
    Except.map g (Except.ok x : Except ε α) = Except.ok (g x) := rfl

theorem int_ediv_lt_self (v n : Int) (hv : 0 < v) (hn : 2 ≤ n) : v / n < v := by
  have h1 : v = ((v.toNat : ℕ) : ℤ) := by omega
  have h2 : n = ((n.toNat : ℕ) : ℤ) := by omega
  rw [h1, h2, ← Int.natCast_div]
  have h3 := Nat.div_lt_self (show 0 < v.toNat by omega) (show 1 < n.toNat by omega)
  exact_mod_cast h3

theorem convert_to_base_n_loop_append :
    ∀ (f : Nat) (v n : Int) (acc : List Int),
      convert_to_base_n_loop f v n acc = convert_to_base_n_loop f v n [] ++ acc := by
  intro f
  induction f with
  | zero => intro v n acc; rfl
  | succ f ih =>
    intro v n acc
    simp only [convert_to_base_n_loop]
    by_cases h0 : v = 0
    · simp [h0]
    · simp only [if_neg h0]
      rw [ih (Int.fdiv v n) n (Int.fmod v n :: acc), ih (Int.fdiv v n) n [Int.fmod v n]]
      simp

theorem convert_to_base_n_loop_congr :
    ∀ (f g : Nat) (v n : Int), 0 ≤ v → 2 ≤ n → v.natAbs < f → v.natAbs < g →
      convert_to_base_n_loop f v n [] = convert_to_base_n_loop g v n [] := by
  intro f
  induction f with
  | zero => omega
  | succ f ih =>
    intro g v n hv hn hf hg
    rcases g with _ | g
    · omega
    · simp only [convert_to_base_n_loop]
      by_cases h0 : v = 0
      · simp [h0]
      · simp only [if_neg h0]
        have hfd : Int.fdiv v n = v / n := Int.fdiv_eq_ediv _ (by omega)
        have hlt : v / n < v := int_ediv_lt_self v n (by omega) hn
        have hnn : 0 ≤ v / n := Int.ediv_nonneg hv (by omega)
        rw [convert_to_base_n_loop_append f, convert_to_base_n_loop_append g, hfd]
        rw [ih g (v / n) n hnn hn (by omega) (by omega)]

theorem convert_to_base_n_eq (v n : Int) (hv : 0 ≤ v) (hn : 2 ≤ n) :
    convert_to_base_n v n =
      if v = 0 then [] else convert_to_base_n (Int.fdiv v n) n ++ [Int.fmod v n] := by
  show convert_to_base_n_loop (v.natAbs + 1) v n [] = _
  simp only [convert_to_base_n_loop]
  by_cases h0 : v = 0
  · simp [h0]
  · simp only [if_neg h0]
    have hfd : Int.fdiv v n = v / n := Int.fdiv_eq_ediv _ (by omega)
    have hlt : v / n < v := int_ediv_lt_self v n (by omega) hn
    have hnn : 0 ≤ v / n := Int.ediv_nonneg hv (by omega)
    rw [convert_to_base_n_loop_append v.natAbs, hfd]
    show convert_to_base_n_loop v.natAbs (v / n) n [] ++ [Int.fmod v n] =
      convert_to_base_n_loop ((v / n).natAbs + 1) (v / n) n [] ++ [Int.fmod v n]
    rw [convert_to_base_n_loop_congr v.natAbs ((v / n).natAbs + 1) (v / n) n hnn hn
      (by omega) (by omega)]

theorem horner_eval_append (ds : List Int) (d r : Int) :
    horner_eval (ds ++ [d]) r = horner_eval ds r * r + d := by
  simp [horner_eval, List.foldl_append]

theorem horner_foldl_ge (r : Int) (hr : 2 ≤ r) :
    ∀ (ds : List Int) (acc : Int), 1 ≤ acc → (∀ d ∈ ds, 0 ≤ d) →
      1 ≤ List.foldl (fun output coefficient => output * r + coefficient) acc ds := by
  intro ds
  induction ds with
  | nil => intro acc hacc _; simpa using hacc
  | cons d ds ih =>
    intro acc hacc hd
    simp only [List.foldl_cons]
    apply ih
    · nlinarith [hd d (List.mem_cons_self d ds)]
    · intro x hx; exact hd x (List.mem_cons_of_mem d hx)

theorem horner_eval_pos (r : Int) (hr : 2 ≤ r) (ds : List Int) (hne : ds ≠ [])
    (hd : ∀ d ∈ ds, 1 ≤ d) : 1 ≤ horner_eval ds r := by
  match ds, hne with
  | d :: ds, _ =>
    show 1 ≤ List.foldl (fun output coefficient => output * r + coefficient) (0 * r + d) ds
    apply horner_foldl_ge r hr
    · have := hd d (List.mem_cons_self d ds)
      omega
    · intro x hx
      have := hd x (List.mem_cons_of_mem d hx)
      omega

theorem convert_horner (r : Int) (hr : 2 ≤ r) (ds : List Int) (hne : ds ≠ [])
    (hd : ∀ d ∈ ds, 1 ≤ d ∧ d < r) :
    convert_to_base_n (horner_eval ds r) r = ds := by
  induction ds using List.reverseRecOn with
  | nil => exact absurd rfl hne
  | append_singleton xs x ih =>
    have hx := hd x (by simp)
    rcases List.eq_nil_or_concat xs with hxs | _
    · subst hxs
      have hx1 : horner_eval ([] ++ [x]) r = x := by
        rw [horner_eval_append]
        simp [horner_eval]
      rw [hx1]
      rw [convert_to_base_n_eq x r (by omega) hr, if_neg (by omega)]
      have hfd : Int.fdiv x r = x / r := Int.fdiv_eq_ediv _ (by omega)
      have hfm : Int.fmod x r = x % r := Int.fmod_eq_emod _ (by omega)
      rw [hfd, hfm, Int.ediv_eq_zero_of_lt (by omega) (by omega),
        Int.emod_eq_of_lt (by omega) (by omega)]
      rfl
    · have hxs : xs ≠ [] := by
        rintro rfl
        simp at *
      have hdx : ∀ d ∈ xs, 1 ≤ d ∧ d < r := fun d hdm => hd d (by simp [hdm])
      have hpos : 1 ≤ horner_eval xs r :=
        horner_eval_pos r hr xs hxs fun d hdm => (hdx d hdm).1
      rw [horner_eval_append]
      have hval : horner_eval xs r * r + x = x + r * horner_eval xs r := by ring
      rw [hval]
      have hvpos : 0 < x + r * horner_eval xs r := by nlinarith [hx.1]
      rw [convert_to_base_n_eq _ r (by omega) hr, if_neg (by omega)]
      have hfd : Int.fdiv (x + r * horner_eval xs r) r = (x + r * horner_eval xs r) / r :=
        Int.fdiv_eq_ediv _ (by omega)
      have hfm : Int.fmod (x + r * horner_eval xs r) r = (x + r * horner_eval xs r) % r :=
        Int.fmod_eq_emod _ (by omega)
      rw [hfd, hfm]
      have hdiv : (x + r * horner_eval xs r) / r = horner_eval xs r := by
        have h1 : x + r * horner_eval xs r = x + horner_eval xs r * r := by ring
        rw [h1, Int.add_mul_ediv_right x (horner_eval xs r) (by omega : r ≠ 0),
          Int.ediv_eq_zero_of_lt (by omega) (by omega)]
        omega
      have hmod : (x + r * horner_eval xs r) % r = x := by
        rw [Int.add_mul_emod_self_left, Int.emod_eq_of_lt (by omega) (by omega)]
      rw [hdiv, hmod, ih hxs hdx]

theorem characters_round (c : Char) (hc : c ∈ characters) :
    ∃ i : Int, get_index_from_character c = Except.ok i ∧ 1 ≤ i ∧ i ≤ 26 ∧
      get_character_from_index i = Except.ok c := by
  fin_cases hc <;> exact ⟨_, rfl, by decide, by decide, rfl⟩

theorem convert_to_bearcatii_spec :
    ∀ (s : List Char), (∀ c ∈ s, c ∈ characters) →
      ∃ ds : List Int, convert_to_bearcatii s = Except.ok ds ∧
        ds.length = s.length ∧ (∀ d ∈ ds, 1 ≤ d ∧ d ≤ 26) ∧
        convert_bearcatii_to_string ds = Except.ok s := by
  intro s
  induction s with
  | nil => exact fun _ => ⟨[], rfl, rfl, by simp, rfl⟩
  | cons c cs ih =>
    intro hs
    obtain ⟨i, hi, h1, h26, hback⟩ := characters_round c (hs c (List.mem_cons_self c cs))
    obtain ⟨ds, hds, hlen, hdig, hstr⟩ := ih fun x hx => hs x (List.mem_cons_of_mem c hx)
    refine ⟨i :: ds, ?_, by simp [hlen], ?_, ?_⟩
    · show Except.bind (get_index_from_character c) _ = _
      rw [hi, except_bind_ok, hds, except_map_ok]
    · intro d hdm
      rcases List.mem_cons.mp hdm with h | h
      · subst h; exact ⟨h1, h26⟩
      · exact hdig d h
    · show Except.bind (get_character_from_index i) _ = _
      rw [hback, except_bind_ok, hstr, except_map_ok]

/-! ### Totality of the primality test for n ≥ 4 -/

theorem mr_halving_loop_ok (a n : Int) (hn : 4 ≤ n) :
    ∀ (f : Nat) (k : Int), 0 ≤ k → ∃ b, mr_halving_loop a n k f = Except.ok b := by
  intro f
  induction f with
  | zero => exact fun k _ => ⟨true, rfl⟩
  | succ f ih =>
    intro k hk
    simp only [mr_halving_loop]
    by_cases heven : Int.fmod k 2 = 0
    · simp only [if_pos heven]
      have hfd : Int.fdiv k 2 = k / 2 := Int.fdiv_eq_ediv _ (by omega)
      have hnn : 0 ≤ k / 2 := Int.ediv_nonneg hk (by omega)
      rw [hfd, powers_spec a (k / 2) n hnn (by omega), except_bind_ok]
      by_cases hx1 : a ^ (k / 2).toNat % n = n - 1
      · exact ⟨true, by rw [if_pos hx1]⟩
      · rw [if_neg hx1]
        by_cases hx2 : a ^ (k / 2).toNat % n ≠ 1
        · exact ⟨false, by rw [if_pos hx2]⟩
        · rw [if_neg hx2]
          exact ih (k / 2) hnn
    · exact ⟨true, by rw [if_neg heven]⟩

theorem prime_test_rounds_ok (draw : Nat → Int → Int → Int) (n : Int) (hn : 4 ≤ n) :
    ∀ r : Nat, ∃ b, prime_test_rounds draw n r = Except.ok b := by
  intro r
  induction r with
  | zero => exact ⟨true, rfl⟩
  | succ r ih =>
    simp only [prime_test_rounds]
    have hdraw : get_random_int_between (draw r) 2 (n - 2) = Except.ok (draw r 2 (n - 2)) := by
      show (if n - 2 < 2 then _ else _) = _
      rw [if_neg (by omega)]
    rw [hdraw, except_bind_ok, powers_spec _ (n - 1) n (by omega) (by omega), except_bind_ok]
    by_cases hf : draw r 2 (n - 2) ^ (n - 1).toNat % n ≠ 1
    · exact ⟨false, by rw [if_pos hf]⟩
    · rw [if_neg hf]
      obtain ⟨b, hb⟩ := mr_halving_loop_ok (draw r 2 (n - 2)) n hn (n - 1).natAbs (n - 1) (by omega)
      rw [hb, except_bind_ok]
      rcases b with _ | _
      · exact ⟨false, by rw [if_neg Bool.false_ne_true]⟩
      · obtain ⟨b2, hb2⟩ := ih
        rw [if_pos rfl]
        exact ⟨b2, hb2⟩

/-! ### Shape of the digit strings built by the prime generator -/

theorem join_digits_foldl_bounds :
    ∀ (ds : List Int) (acc : Int), 1 ≤ acc → (∀ d ∈ ds, 0 ≤ d ∧ d ≤ 9) →
      acc * 10 ^ ds.length ≤ List.foldl (fun a d => a * 10 + d) acc ds ∧
      List.foldl (fun a d => a * 10 + d) acc ds < (acc + 1) * 10 ^ ds.length := by
  intro ds
  induction ds with
  | nil => intro acc hacc _; simp
  | cons d ds ih =>
    intro acc hacc hd
    have hdm := hd d (List.mem_cons_self d ds)
    have hacc2 : 1 ≤ acc * 10 + d := by omega
    obtain ⟨hlo, hhi⟩ := ih (acc * 10 + d) hacc2 fun x hx => hd x (List.mem_cons_of_mem d hx)
    have hp : (0:ℤ) < 10 ^ ds.length := pow_pos (by norm_num) _
    simp only [List.foldl_cons, List.length_cons]
    rw [pow_succ]
    constructor
    · nlinarith
    · nlinarith

theorem join_digits_last :
    ∀ (ds : List Int) (acc lastd : Int),
      List.foldl (fun a d => a * 10 + d) acc (ds ++ [lastd]) =
        List.foldl (fun a d => a * 10 + d) acc ds * 10 + lastd := by
  intro ds acc lastd
  rw [List.foldl_append]
  rfl

/-! ### The RSA congruence `m ^ (e * d) ≡ m  (mod p * q)` -/

theorem prime_pow_modEq_self (p : ℕ) (hp : Nat.Prime p) (k : ℕ) (hk1 : 1 ≤ k)
    (hk : k ≡ 1 [MOD p - 1]) (m : ℕ) : m ^ k ≡ m [MOD p] := by
  by_cases hdvd : p ∣ m
  · have h1 : m ≡ 0 [MOD p] := Nat.modEq_zero_iff_dvd.mpr hdvd
    have h2 : m ^ k ≡ 0 [MOD p] :=
      Nat.modEq_zero_iff_dvd.mpr (dvd_pow hdvd (by omega))
    exact h2.trans h1.symm
  · have hcop : Nat.Coprime m p := ((hp.coprime_iff_not_dvd).mpr hdvd).symm
    have heuler : m ^ (p - 1) ≡ 1 [MOD p] := by
      have h := Nat.ModEq.pow_totient hcop
      rwa [Nat.totient_prime hp] at h
    obtain ⟨t, ht⟩ := (Nat.modEq_iff_dvd' hk1).mp hk.symm
    have hk' : k = (p - 1) * t + 1 := by omega
    calc m ^ k = (m ^ (p - 1)) ^ t * m := by rw [hk', pow_add, pow_mul, pow_one]
    _ ≡ 1 ^ t * m [MOD p] := Nat.ModEq.mul (heuler.pow t) Nat.ModEq.rfl
    _ = m := by rw [one_pow, one_mul]

theorem rsa_key_identity (p q : ℕ) (hp : Nat.Prime p) (hq : Nat.Prime q) (hpq : p ≠ q)
    (k : ℕ) (hk1 : 1 ≤ k) (hk : k ≡ 1 [MOD (p - 1) * (q - 1)]) (m : ℕ) :
    m ^ k ≡ m [MOD p * q] := by
  have hcop : Nat.Coprime p q := (Nat.coprime_primes hp hq).mpr hpq
  have h1 : m ^ k ≡ m [MOD p] :=
    prime_pow_modEq_self p hp k hk1 (hk.of_dvd (dvd_mul_right _ _)) m
  have h2 : m ^ k ≡ m [MOD q] :=
    prime_pow_modEq_self q hq k hk1 (hk.of_dvd (dvd_mul_left _ _)) m
  exact (Nat.modEq_and_modEq_iff_modEq_mul hcop).mp ⟨h1, h2⟩

/-! ### Claim theorems -/

/-- Claim C1, counterexample: the spec's end-to-end example fails on the code.
With `p = 61`, `q = 53`, `e = 17`, the message `"HELLO"` encodes (via Horner
at radix 27) to `M = 4359030`, which exceeds `n = 3233`, so encrypting and
then decrypting does not reproduce `"HELLO"`. -/
theorem c1_hello_example_fails :
    ¬(rsa_pipeline 61 53 17 ['H', 'E', 'L', 'L', 'O'] =
        Except.ok ['H', 'E', 'L', 'L', 'O']) := by
  intro h
  rw [show rsa_pipeline 61 53 17 ['H', 'E', 'L', 'L', 'O'] = Except.ok ['A', 'H', 'A'] from rfl]
    at h
  exact absurd (Except.ok.inj h) (by decide)

/-- Claim C1, amended: with `p = 61`, `q = 53` (`n = 3233`, `phi = 3120`) and
`e = 17` accepted by the `euclid_gcd` check, `"HELLO"` encodes to
`M = 4359030 > n`, so the encrypt–decrypt pipeline returns
`decode(M mod n) = "AHA"`, not `"HELLO"`; for a message whose encoding is
below the modulus, e.g. `"GO"` (`M = 204`), the pipeline reproduces it
exactly. -/
theorem c1_hello_example_amended :
    euclid_gcd 17 (euler_totient 61 53) = 1 ∧
    convert_to_bearcatii ['H', 'E', 'L', 'L', 'O'] = Except.ok [8, 5, 12, 12, 15] ∧
    horner_eval [8, 5, 12, 12, 15] 27 = 4359030 ∧
    (61 * 53 : Int) < 4359030 ∧
    rsa_pipeline 61 53 17 ['H', 'E', 'L', 'L', 'O'] = Except.ok ['A', 'H', 'A'] ∧
    horner_eval [7, 15] 27 = 204 ∧
    (204 : Int) < 61 * 53 ∧
    rsa_pipeline 61 53 17 ['G', 'O'] = Except.ok ['G', 'O'] :=
  ⟨rfl, rfl, rfl, by decide, rfl, rfl, by decide, rfl⟩

/-- Claim C2: codec round trip.  For every nonempty sequence of alphabet symbols,
Horner-encoding the BearcatII indices at radix `len(characters) + 1 = 27` and
decoding the integer back through `convert_to_base_n` and
`convert_bearcatii_to_string` reproduces the sequence exactly. -/
theorem c2_codec_round_trip (s : List Char) (hne : s ≠ []) (hmem : ∀ c ∈ s, c ∈ characters) :
    (convert_to_bearcatii s).bind
      (fun ds =>
        convert_bearcatii_to_string
          (convert_to_base_n (horner_eval ds ((characters.length : Int) + 1))
            ((characters.length : Int) + 1))) = Except.ok s := by
  obtain ⟨ds, hds, hlen, hdig, hstr⟩ := convert_to_bearcatii_spec s hmem
  rw [hds, except_bind_ok]
  have hrad : ((characters.length : Int) + 1) = 27 := rfl
  rw [hrad]
  have hdsne : ds ≠ [] := by
    intro h
    rw [h] at hlen
    exact hne (List.eq_nil_of_length_eq_zero hlen.symm)
  rw [convert_horner 27 (by norm_num) ds hdsne fun d hdm =>
    ⟨(hdig d hdm).1, by have := (hdig d hdm).2; omega⟩]
  exact hstr

/-- Claim C2, witness: the round trip at the concrete message `"HI"`. -/
theorem c2_codec_round_trip_witness :
    (convert_to_bearcatii ['H', 'I']).bind
      (fun ds =>
        convert_bearcatii_to_string
          (convert_to_base_n (horner_eval ds ((characters.length : Int) + 1))
            ((characters.length : Int) + 1))) = Except.ok ['H', 'I'] :=
  c2_codec_round_trip ['H', 'I'] (by decide) (by decide)

/-- Claim C3: for every integer base `a`, every exponent `n ≥ 0` and every modulus
`k ≥ 1`, `powers a n k` succeeds with `a ^ n mod k` (`0 ^ 0 = 1`), and the
result lies in `[0, k)`. -/
theorem c3_powers_nonneg_spec (a n k : Int) (hn : 0 ≤ n) (hk : 1 ≤ k) :
    powers a n k = Except.ok (a ^ n.toNat % k) ∧
    0 ≤ a ^ n.toNat % k ∧ a ^ n.toNat % k < k :=
  ⟨powers_spec a n k hn hk, Int.emod_nonneg _ (by omega), Int.emod_lt_of_pos _ (by omega)⟩

/-- Claim C3, witness: `powers 5 3 7 = 5 ^ 3 mod 7 = 6`, in range. -/
theorem c3_powers_nonneg_spec_witness :
    powers 5 3 7 = Except.ok ((5:ℤ) ^ (3:ℤ).toNat % 7) ∧
    0 ≤ (5:ℤ) ^ (3:ℤ).toNat % 7 ∧ (5:ℤ) ^ (3:ℤ).toNat % 7 < 7 :=
  c3_powers_nonneg_spec 5 3 7 (by decide) (by decide)

/-- Claim C4, counterexample: at `base = -1`, `modulus = 0`, `exponent = -1` the
code raises the inverse-not-found error although `gcd(-1, 0) = 1`, refuting
the claimed equivalence for arbitrary moduli (the code compares the raw
extended-gcd value `g = -1` against `1`). -/
theorem c4_negative_exponent_counterexample :
    powers (-1) (-1) 0 = Except.error "Inverse does not exist." ∧
    Int.gcd (-1) 0 = 1 :=
  ⟨rfl, rfl⟩

/-- Claim C4, amended: for every `exponent < 0` and every `modulus ≥ 1`,
`powers base exponent modulus` fails with the inverse-not-found error iff
`gcd(base, modulus) ≠ 1`; and for every base and `modulus > 1` with
`gcd(base, modulus) = 1`, `powers base (-1) modulus * base mod modulus = 1`. -/
theorem c4_negative_exponent_spec (a n k : Int) (hn : n < 0) (hk : 1 ≤ k) :
    (powers a n k = Except.error "Inverse does not exist." ↔ Int.gcd a k ≠ 1) ∧
    (1 < k → Int.gcd a k = 1 →
      ∃ r, powers a (-1) k = Except.ok r ∧ r * a % k = 1) := by
  have hg : (extended_euclid_gcd a k).1 = ↑(Int.gcd a k) :=
    extended_euclid_gcd_fst k.natAbs a k (by omega) (Or.inr hk) le_rfl
  constructor
  · rw [powers_eq]
    rw [if_neg (by omega : ¬n = 0), if_neg (by omega : ¬n = 1), if_pos hn]
    by_cases hgcd : Int.gcd a k = 1
    · have hcond : ¬((extended_euclid_gcd a k).1 ≠ 1) := by
        rw [hg, hgcd]
        simp
      rw [if_neg hcond, powers_spec _ (-n) k (by omega) hk]
      constructor
      · intro h
        exact absurd h (by simp)
      · intro h
        exact absurd hgcd h
    · have hcond : (extended_euclid_gcd a k).1 ≠ 1 := by
        rw [hg]
        intro h
        exact hgcd (by exact_mod_cast h)
      rw [if_pos hcond]
      exact ⟨fun _ => hgcd, fun _ => rfl⟩
  · intro hk1 hgcd
    have hbez := extended_euclid_gcd_bezout k.natAbs a k (by omega) le_rfl
    rw [hg, hgcd] at hbez
    rw [powers_eq]
    rw [if_neg (by omega : ¬(-1 : ℤ) = 0), if_neg (by omega : ¬(-1 : ℤ) = 1),
      if_pos (by omega : (-1 : ℤ) < 0)]
    have hcond : ¬((extended_euclid_gcd a k).1 ≠ 1) := by
      rw [hg, hgcd]
      simp
    rw [if_neg hcond, show (-(-1 : ℤ)) = 1 from rfl,
      powers_spec _ 1 k (by omega) hk]
    refine ⟨Int.fmod (extended_euclid_gcd a k).2.1 k % k, by norm_num, ?_⟩
    rw [Int.fmod_eq_emod _ (by omega : (0:ℤ) ≤ k), Int.emod_emod]
    rw [Int.mul_emod, Int.emod_emod, ← Int.mul_emod]
    have hsa : (extended_euclid_gcd a k).2.1 * a = 1 + (-(extended_euclid_gcd a k).2.2) * k := by
      push_cast at hbez
      linarith
    rw [hsa, Int.add_mul_emod_self, Int.emod_eq_of_lt (by omega) (by omega)]

/-- Claim C4, witness: at `base = 2`, `exponent = -3`, `modulus = 5` (coprime), the
equivalence and the inverse law hold; in particular
`powers 2 (-1) 5 = 3` and `3 * 2 mod 5 = 1`. -/
theorem c4_negative_exponent_spec_witness :
    (powers 2 (-3) 5 = Except.error "Inverse does not exist." ↔ Int.gcd 2 5 ≠ 1) ∧
    (1 < (5:ℤ) → Int.gcd 2 5 = 1 →
      ∃ r, powers 2 (-1) 5 = Except.ok r ∧ r * 2 % 5 = 1) :=
  c4_negative_exponent_spec 2 (-3) 5 (by decide) (by decide)

/-- Claim C5: for non-negative `a`, `b`, `extended_euclid_gcd a b` returns
`(g, s, t)` with `g = gcd(a, b)` and `s * a + t * b = g`; the base case
`b = 0` yields `(a, 1, 0)` and for `b ≠ 0` the result is obtained from the
triple for `(b, a mod b)` by the combination step `(g, t, s - (a div b) * t)`. -/
theorem c5_extended_euclid_spec (a b : Int) (ha : 0 ≤ a) (hb : 0 ≤ b) :
    (extended_euclid_gcd a b).1 = ↑(Int.gcd a b) ∧
    (extended_euclid_gcd a b).2.1 * a + (extended_euclid_gcd a b).2.2 * b =
      (extended_euclid_gcd a b).1 ∧
    extended_euclid_gcd a 0 = (a, 1, 0) ∧
    (b ≠ 0 → extended_euclid_gcd a b =
      ((extended_euclid_gcd b (Int.fmod a b)).1,
       (extended_euclid_gcd b (Int.fmod a b)).2.2,
       (extended_euclid_gcd b (Int.fmod a b)).2.1 -
         Int.fdiv a b * (extended_euclid_gcd b (Int.fmod a b)).2.2)) :=
  ⟨extended_euclid_gcd_fst b.natAbs a b hb (Or.inl ha) le_rfl,
   extended_euclid_gcd_bezout b.natAbs a b hb le_rfl,
   by rw [extended_euclid_gcd_eq a 0 le_rfl, if_pos rfl],
   fun hb0 => by rw [extended_euclid_gcd_eq a b hb, if_neg hb0]⟩

/-- Claim C5, witness: `extended_euclid_gcd 12 8 = (4, 1, -1)` with
`1 * 12 + (-1) * 8 = 4 = gcd(12, 8)`. -/
theorem c5_extended_euclid_spec_witness :
    (extended_euclid_gcd 12 8).1 = ↑(Int.gcd 12 8) ∧
    (extended_euclid_gcd 12 8).2.1 * 12 + (extended_euclid_gcd 12 8).2.2 * 8 =
      (extended_euclid_gcd 12 8).1 ∧
    extended_euclid_gcd 12 0 = (12, 1, 0) ∧
    ((8:ℤ) ≠ 0 → extended_euclid_gcd 12 8 =
      ((extended_euclid_gcd 8 (Int.fmod 12 8)).1,
       (extended_euclid_gcd 8 (Int.fmod 12 8)).2.2,
       (extended_euclid_gcd 8 (Int.fmod 12 8)).2.1 -
         Int.fdiv 12 8 * (extended_euclid_gcd 8 (Int.fmod 12 8)).2.2)) :=
  c5_extended_euclid_spec 12 8 (by decide) (by decide)

/-- Claim C6 (code bug): the boundary behaviour of `get_character_from_index`.
Positions 1 and 26 map to `'A'` and `'Z'` and position 27 fails as the claim
requires, but position 0 does not fail: the guard only rejects
`index > len(characters)`, so `characters[-1]` silently wraps to `'Z'`
(and e.g. position `-25` wraps to `'A'`), contradicting the documented
`OutOfRange` contract. -/
theorem c6_symbol_lookup_boundary :
    get_character_from_index 1 = Except.ok 'A' ∧
    get_character_from_index 26 = Except.ok 'Z' ∧
    get_character_from_index 27 = Except.error "Index out of range of BearcatII system." ∧
    get_character_from_index 0 = Except.ok 'Z' ∧
    get_character_from_index (-25) = Except.ok 'A' :=
  ⟨rfl, rfl, rfl, rfl, rfl⟩

/-- Claim C7, counterexample: the primality test is not total.  For `n = 2` (and
`n = 3`) with at least one iteration, the witness draw
`randint(2, n - 2)` has an empty range and raises, so the test errors
instead of returning a boolean — whatever values the random source would
produce. -/
theorem c7_prime_test_counterexample :
    prime_test_miller_rabin (fun _ _ _ => 2) 2 1 =
      Except.error "empty range for randrange()" ∧
    prime_test_miller_rabin (fun _ _ _ => 2) 3 1 =
      Except.error "empty range for randrange()" :=
  ⟨rfl, rfl⟩

/-- Claim C7, amended: for every `n ≥ 4`, every iteration count and every random
source, `prime_test_miller_rabin` never raises — it returns a boolean.  (For
`n ≤ 3` with at least one iteration the empty witness range `[2, n-2]` makes
`randint` raise.) -/
theorem c7_prime_test_total (draw : Nat → Int → Int → Int) (n : Int) (iterations : Nat)
    (hn : 4 ≤ n) :
    ∃ b, prime_test_miller_rabin draw n iterations = Except.ok b :=
  prime_test_rounds_ok draw n hn iterations

/-- Claim C7, witness: testing `n = 5` with one iteration and the constant witness
`2` returns a boolean. -/
theorem c7_prime_test_total_witness :
    ∃ b, prime_test_miller_rabin (fun _ _ _ => 2) 5 1 = Except.ok b :=
  c7_prime_test_total (fun _ _ _ => 2) 5 1 (by decide)

/-- Claim C8, counterexample: for `digits = 1` the generator's claimed output shape
fails.  The candidate string is `f"{first}{last}"` — two digits — because the
`digits - 2` middle draws are skipped but both the first and the last digit
are always emitted.  A possible run returns `11`, which does not have
exactly one decimal digit. -/
theorem c8_generate_counterexample :
    generate_n_digit_prime_spec 1 (fun _ _ _ => 2) 11 ∧ ¬((11:ℤ) < 10 ^ 1) :=
  ⟨⟨1, [], 1, by decide, by decide, rfl, by simp, Or.inl rfl, rfl, rfl⟩, by decide⟩

/-- Claim C8, amended: for every `digits ≥ 2`, any value the generator can return
has exactly `digits` decimal digits (it lies in `[10^(digits-1), 10^digits)`),
its last decimal digit is in `{1, 3, 7, 9}`, and it passed
`prime_test_miller_rabin` with 10 iterations. -/
theorem c8_generate_shape (n : Nat) (draw : Nat → Int → Int → Int) (v : Int) (hn : 2 ≤ n)
    (h : generate_n_digit_prime_spec n draw v) :
    10 ^ (n - 1) ≤ v ∧ v < 10 ^ n ∧
    (v % 10 = 1 ∨ v % 10 = 3 ∨ v % 10 = 7 ∨ v % 10 = 9) ∧
    prime_test_miller_rabin draw v 10 = Except.ok true := by
  obtain ⟨first, middles, lastd, hf1, hf9, hmlen, hmd, hl, hv, hpt⟩ := h
  obtain ⟨m, rfl⟩ : ∃ m, n = m + 2 := ⟨n - 2, by omega⟩
  have hLlen : (middles ++ [lastd]).length = m + 1 := by
    simp [hmlen]
  have hLd : ∀ d ∈ middles ++ [lastd], 0 ≤ d ∧ d ≤ 9 := by
    intro d hdm
    rcases List.mem_append.mp hdm with h | h
    · exact hmd d h
    · have : d = lastd := by simpa using h
      subst this
      omega
  have hJ : v = List.foldl (fun a d => a * 10 + d) first (middles ++ [lastd]) := by
    rw [hv]
    show List.foldl (fun a d => a * 10 + d) (0 * 10 + first) (middles ++ [lastd]) = _
    norm_num
  obtain ⟨hlo, hhi⟩ :=
    join_digits_foldl_bounds (middles ++ [lastd]) first (by omega) hLd
  rw [hLlen] at hlo hhi
  have hp : (0:ℤ) < 10 ^ (m + 1) := pow_pos (by norm_num) _
  refine ⟨?_, ?_, ?_, hpt⟩
  · show (10:ℤ) ^ (m + 2 - 1) ≤ v
    rw [hJ, show m + 2 - 1 = m + 1 from rfl]
    nlinarith
  · show v < (10:ℤ) ^ (m + 2)
    rw [hJ, show m + 2 = (m + 1) + 1 from rfl, pow_succ]
    nlinarith
  · have hlast : v % 10 = lastd := by
      rw [hJ, join_digits_last]
      have hre : List.foldl (fun a d => a * 10 + d) first middles * 10 + lastd =
          lastd + List.foldl (fun a d => a * 10 + d) first middles * 10 := by ring
      rw [hre, Int.add_mul_emod_self, Int.emod_eq_of_lt (by omega) (by omega)]
    rw [hlast]
    exact hl

/-- Claim C8, witness: for `digits = 2`, the run returning `11` lies in `[10, 100)`,
ends in `1` and passed the test. -/
theorem c8_generate_shape_witness :
    10 ^ (2 - 1) ≤ (11:ℤ) ∧ (11:ℤ) < 10 ^ 2 ∧
    ((11:ℤ) % 10 = 1 ∨ (11:ℤ) % 10 = 3 ∨ (11:ℤ) % 10 = 7 ∨ (11:ℤ) % 10 = 9) ∧
    prime_test_miller_rabin (fun _ _ _ => 2) 11 10 = Except.ok true :=
  c8_generate_shape 2 (fun _ _ _ => 2) 11 (by decide)
    ⟨1, [], 1, by decide, by decide, rfl, by simp, Or.inl rfl, rfl, rfl⟩

/-- Claim C9, counterexample: `euclid_gcd` does not always return the non-negative
gcd: `euclid_gcd (-4) 0 = -4`, which is negative and differs from
`gcd(-4, 0) = 4`. -/
theorem c9_gcd_counterexample :
    euclid_gcd (-4) 0 = -4 ∧ ¬(euclid_gcd (-4) 0 = ↑(Int.gcd (-4) 0)) :=
  ⟨rfl, by decide⟩

/-- Claim C9, amended: for all non-negative `a`, `b`, `euclid_gcd a b` is the
non-negative greatest common divisor, and `euclid_gcd a 0 = a` (which is the
source of the sign defect for negative `a`). -/
theorem c9_gcd_spec (a b : Int) (ha : 0 ≤ a) (hb : 0 ≤ b) :
    euclid_gcd a b = ↑(Int.gcd a b) ∧ euclid_gcd a 0 = a :=
  ⟨euclid_gcd_eq_gcd b.natAbs a b ha hb le_rfl,
   by rw [euclid_gcd_eq a 0 le_rfl, if_pos rfl]⟩

/-- Claim C9, witness: `euclid_gcd 4 6 = gcd(4, 6) = 2` and `euclid_gcd 4 0 = 4`. -/
theorem c9_gcd_spec_witness :
    euclid_gcd 4 6 = ↑(Int.gcd 4 6) ∧ euclid_gcd 4 0 = 4 :=
  c9_gcd_spec 4 6 (by decide) (by decide)

/-- Claim C10, counterexample: the round-trip identity fails for a negative private
exponent `d` satisfying `e * d ≡ 1 (mod phi)`.  With `p = 3`, `q = 5`
(`n = 15`, `phi = 8`), `e = 3`, `d = -5` (`3 * -5 ≡ 1 (mod 8)`) and the
message `M = 3 < 15`, decryption takes the modular-inverse path and raises
`InverseNotFound` because `gcd(M^e mod n, n) = 3 ≠ 1`; symmetrically a
negative public exponent `e = -5` already fails at encryption. -/
theorem c10_round_trip_counterexample :
    (Nat.Prime 3 ∧ Nat.Prime 5 ∧ (3:ℕ) ≠ 5 ∧
      Int.gcd 3 (euler_totient 3 5) = 1 ∧
      (3 * (-5) : ℤ) % euler_totient 3 5 = 1 % euler_totient 3 5 ∧
      (0:ℤ) ≤ 3 ∧ (3:ℤ) < 3 * 5) ∧
    (powers 3 3 15).bind (fun c => powers c (-5) 15) =
      Except.error "Inverse does not exist." ∧
    (powers 3 (-5) 15).bind (fun c => powers c 3 15) =
      Except.error "Inverse does not exist." :=
  ⟨⟨by norm_num, by norm_num, by decide, by decide, by decide, by decide, by decide⟩,
   rfl, rfl⟩

/-- Claim C10, amended: for all distinct primes `p`, `q` with `n = p * q` and
`phi = (p-1) * (q-1)`, every public exponent `e ≥ 1` with `gcd(e, phi) = 1`,
every `d ≥ 1` with `e * d ≡ 1 (mod phi)`, and every message
`0 ≤ M < n`, decrypting the encryption returns `M`:
`powers (powers M e n) d n = M`. -/
theorem c10_round_trip (p q : ℕ) (hp : Nat.Prime p) (hq : Nat.Prime q) (hpq : p ≠ q)
    (e d : ℤ) (he : 1 ≤ e) (hd : 1 ≤ d)
    (hcop : Int.gcd e (euler_totient (p:ℤ) (q:ℤ)) = 1)
    (hed : e * d % euler_totient (p:ℤ) (q:ℤ) = 1 % euler_totient (p:ℤ) (q:ℤ))
    (M : Int) (hM0 : 0 ≤ M) (hMn : M < (p:ℤ) * q) :
    (powers M e ((p:ℤ) * q)).bind (fun c => powers c d ((p:ℤ) * q)) = Except.ok M := by
  have hp2 : 2 ≤ p := hp.two_le
  have hq2 : 2 ≤ q := hq.two_le
  have hp2' : (2:ℤ) ≤ (p:ℤ) := by exact_mod_cast hp2
  have hq2' : (2:ℤ) ≤ (q:ℤ) := by exact_mod_cast hq2
  have hn1 : (1:ℤ) ≤ (p:ℤ) * q := by nlinarith
  rw [powers_spec M e _ (by omega) hn1, except_bind_ok,
    powers_spec _ d _ (by omega) hn1]
  congr 1
  rw [← int_pow_emod, ← pow_mul]
  have hE1 : 1 ≤ e.toNat := by omega
  have hD1 : 1 ≤ d.toNat := by omega
  have hED1 : 1 ≤ e.toNat * d.toNat := by
    have := Nat.mul_le_mul hE1 hD1
    simpa using this
  have hphi : euler_totient (p:ℤ) (q:ℤ) = (((p - 1) * (q - 1) : ℕ) : ℤ) := by
    show ((p:ℤ) - 1) * ((q:ℤ) - 1) = _
    have h1 : (((p - 1 : ℕ)) : ℤ) = (p:ℤ) - 1 := by omega
    have h2 : (((q - 1 : ℕ)) : ℤ) = (q:ℤ) - 1 := by omega
    push_cast
    rw [h1, h2]
  have hed2 : e * d = ((e.toNat * d.toNat : ℕ) : ℤ) := by
    push_cast
    rw [Int.toNat_of_nonneg (by omega : (0:ℤ) ≤ e), Int.toNat_of_nonneg (by omega : (0:ℤ) ≤ d)]
  rw [hphi, hed2] at hed
  have hmodeq : e.toNat * d.toNat ≡ 1 [MOD (p - 1) * (q - 1)] := by
    obtain ⟨ED, hED⟩ : ∃ t, e.toNat * d.toNat = t := ⟨_, rfl⟩
    obtain ⟨PQ, hPQ⟩ : ∃ t, (p - 1) * (q - 1) = t := ⟨_, rfl⟩
    rw [hED, hPQ] at hed ⊢
    unfold Nat.ModEq
    exact_mod_cast hed
  have hkey := rsa_key_identity p q hp hq hpq (e.toNat * d.toNat) hED1 hmodeq M.toNat
  have hM : M = ((M.toNat : ℕ) : ℤ) := by omega
  have hnn : ((p:ℤ) * q) = ((p * q : ℕ) : ℤ) := by push_cast; ring
  rw [hM, hnn, ← Nat.cast_pow, ← Int.natCast_mod, Nat.cast_inj]
  have hMlt : M.toNat < p * q := by
    have : ((M.toNat : ℕ) : ℤ) < ((p * q : ℕ) : ℤ) := by rw [← hM, ← hnn]; exact hMn
    exact_mod_cast this
  calc M.toNat ^ (e.toNat * d.toNat) % (p * q)
      = M.toNat % (p * q) := hkey
    _ = M.toNat := Nat.mod_eq_of_lt hMlt

/-- Claim C10, witness: `p = 3`, `q = 5`, `e = 3`, `d = 11`, `M = 7`:
`powers (powers 7 3 15) 11 15 = 7`. -/
theorem c10_round_trip_witness :
    (powers 7 3 ((3:ℕ) * ((5:ℕ) : ℤ))).bind (fun c => powers c 11 ((3:ℕ) * ((5:ℕ) : ℤ))) =
      Except.ok 7 :=
  c10_round_trip 3 5 (by norm_num) (by norm_num) (by decide) 3 11 (by decide) (by decide)
    (by decide) (by decide) 7 (by decide) (by decide)

end RSA
